import Mathlib

/-!
Verification of the locnguyen_hudsonthames stock-data pipeline.

Shallow embedding of `src/locnguyen/download_data.py` (the full variant,
with `preprocess_returns_df`) and, where the near-duplicate variant
`src/download_data.py` differs (the " Returns" column-suffix in
`calc_normalized_returns`), of that variant as well.

Modelling conventions:
  - A pandas float cell is `Val`: `na` stands for NaN/missing (pandas
    `isnull` is true exactly on NaN), `fin q` for a finite float modelled
    as an exact rational, `pinf`/`ninf` for the IEEE infinities that
    pandas produces on division of a nonzero number by zero (these are
    NOT missing for pandas).
  - Price panels (`yf.download` output) are product-structured tables:
    a date index, a level-0 indicator list, a level-1 ticker list, and
    one column per (indicator, ticker) pair in indicator-major order;
    price cells are `Option ℚ` (finite or missing).
  - Return panels (`RPanel`) have an arbitrary list of labelled columns,
    since the cleaning pipeline drops columns individually.
  - Fallible pandas operations (KeyError on `.loc` with an unknown label,
    ValueError on a DataFrame shape mismatch, IndexError on `index[0]`
    of an empty index) are modelled by `Option`, returning `none`.
  - The date index of the data model is `ℕ`; the spec's PricePanel
    invariant makes it ascending and unique (we only ever need `Nodup`).
-/

/-- A pandas float cell: NaN/missing, a finite value, or an infinity. -/
inductive Val where
  | na : Val
  | fin : ℚ → Val
  | pinf : Val
  | ninf : Val
deriving DecidableEq, Repr

/-- pandas `isnull`: true exactly on NaN/missing. Infinities are not missing. -/
def Val.isNA : Val → Bool
  | .na => true
  | _ => false

/-- A raw price panel as returned by `yf.download`: date index, level-0
indicators, level-1 tickers, and a column of optional prices per
(indicator, ticker) pair, indicator-major. -/
structure PricePanel where
  dates : List ℕ
  indicators : List String
  tickers : List String
  cols : List (List (Option ℚ))
deriving DecidableEq, Repr

/-- A return panel: date index and labelled columns of `Val` cells.
Labels are (indicator name, ticker) pairs. -/
structure RPanel where
  dates : List ℕ
  cols : List ((String × String) × List Val)
deriving DecidableEq, Repr

/-- Well-formedness of a price panel: rectangular with the product column
structure. -/
def PricePanel.WF (p : PricePanel) : Prop :=
  p.cols.length = p.indicators.length * p.tickers.length ∧
  ∀ c ∈ p.cols, c.length = p.dates.length

/-- Well-formedness of a return panel: every column as long as the date index. -/
def RPanel.WF (p : RPanel) : Prop :=
  ∀ c ∈ p.cols, c.2.length = p.dates.length

/-- Cell access in a price panel: row `t` of column `j` (`none` out of range). -/
def PricePanel.cell (p : PricePanel) (t j : ℕ) : Option ℚ :=
  (p.cols.getD j []).getD t none

/-- Cell access in a return panel: row `t` of column `j` (`na` out of range). -/
def RPanel.cell (p : RPanel) (t j : ℕ) : Val :=
  ((p.cols.getD j (("", ""), [])).2).getD t Val.na

/-- A return panel with no missing cell anywhere. -/
def RPanel.clean (p : RPanel) : Bool :=
  p.cols.all (fun c => c.2.all (fun v => !v.isNA))

/-- The `StockUniverse` object state: the attributes the methods read and
write (`self.tickers`, `self.start`, `self.end`, `self.filename`,
`self.prices_df`, `self.returns_df`, `self.clean_df`). -/
structure StockUniverse where
  tickers : List String
  startDate : ℕ
  endDate : ℕ
  filename : String
  prices_df : PricePanel
  returns_df : RPanel
  clean_df : RPanel
deriving DecidableEq, Repr

/-- The `indicator_translation` dictionary built in `StockUniverse.__init__`;
`none` models the KeyError raised on an unknown short code. -/
def indicator_translation : String → Option String
  | "A" => some "Adj Close"
  | "O" => some "Open"
  | "H" => some "High"
  | "L" => some "Low"
  | "C" => some "Close"
  | "V" => some "Volume"
  | _ => none

/-- The columns of one indicator block of a product-structured panel. -/
def blockOf (p : PricePanel) (nm : String) : List (List (Option ℚ)) :=
  (p.cols.drop (p.indicators.indexOf nm * p.tickers.length)).take p.tickers.length

/-- pandas `df.loc[:, indicator_columns]` on a product-structured panel:
select the named level-0 blocks in request order; KeyError (`none`) if a
name is absent. -/
def selectIndicators (p : PricePanel) (names : List String) : Option PricePanel :=
  if names.all (fun nm => p.indicators.contains nm) then
    some ⟨p.dates, names, p.tickers, names.flatMap (fun nm => blockOf p nm)⟩
  else none

/-- `StockUniverse.download_data`: records tickers, start, end and the panel
fetched from the market-data provider (`yf.download`, passed as an oracle).
The source performs no validation of the date range. -/
def download_data (s : StockUniverse) (yfd : List String → ℕ → ℕ → PricePanel)
    (tickers : List String) (startDate endDate : ℕ) : StockUniverse :=
  { s with tickers := tickers, startDate := startDate, endDate := endDate,
           prices_df := yfd tickers startDate endDate }

/-- Modelled from the spec: `setPanel(tickers, startDate, endDate, panel)`
(spec section 4.1) records the panel and its time bounds and fails with
`InvalidRangeError` (here `none`) unless `startDate ≤ endDate`. The
repository has no such operation: `download_data` is the closest code and
performs no range check, so this definition follows the spec's words for
comparison. -/
def setPanel (s : StockUniverse) (tickers : List String)
    (startDate endDate : ℕ) (panel : PricePanel) : Option StockUniverse :=
  if startDate ≤ endDate then
    some { s with tickers := tickers, startDate := startDate, endDate := endDate,
                  prices_df := panel }
  else none

/-- `StockUniverse.store_pickle`: project `self.prices_df` onto the selected
indicator columns and write the projection to the file system at `fn`
(`to_pickle` modelled as a perfect store). Records `self.filename`.
KeyError on an unknown code or absent column is `none`. -/
def store_pickle (s : StockUniverse) (fs : String → Option PricePanel)
    (fn : String) (indicator_select : List String) :
    Option (StockUniverse × (String → Option PricePanel)) :=
  (indicator_select.mapM indicator_translation).bind (fun names =>
    (selectIndicators s.prices_df names).bind (fun dfsave =>
      some ({ s with filename := fn },
            fun f => if f = fn then some dfsave else fs f)))

/-- `StockUniverse.read_pickle`: load the file at `fn` into `self.prices_df`
and record `self.filename`; when `update_characteristics` also set
`self.tickers` to the full level-1 values of the loaded columns (tickers
repeated once per indicator, as `columns.get_level_values(1)` does) and
`self.start`, `self.end` to the first and last date (`df.index[[0,-1]]`
raises IndexError, i.e. `none`, on an empty index). -/
def read_pickle (s : StockUniverse) (fs : String → Option PricePanel)
    (fn : String) (update_characteristics : Bool) : Option StockUniverse :=
  (fs fn).bind (fun df =>
    if update_characteristics then
      match df.dates, df.dates.getLast? with
      | d0 :: _, some dn =>
          some { s with filename := fn, prices_df := df,
                        tickers := df.indicators.flatMap (fun _ => df.tickers),
                        startDate := d0, endDate := dn }
      | _, _ => none
    else
      some { s with filename := fn, prices_df := df })

/-- One return cell: pandas `(cur - prev)/prev` on floats. NaN (missing)
propagates; division by zero follows IEEE: `b/0` is `+inf` for `b > 0`,
`-inf` for `b < 0`, NaN for `b = 0`; otherwise the exact rational. -/
def retCell (prev cur : Option ℚ) : Val :=
  match prev, cur with
  | some a, some b =>
      if a = 0 then
        (if b = 0 then Val.na else if 0 < b then Val.pinf else Val.ninf)
      else Val.fin ((b - a) / a)
  | _, _ => Val.na

/-- Tail of the per-column return computation: cell `t` pairs price `t-1`
with price `t`. -/
def retColAux (prev : Option ℚ) : List (Option ℚ) → List Val
  | [] => []
  | x :: xs => retCell prev x :: retColAux x xs

/-- One column of `(df - df.shift())/df.shift()`: the first row is NaN
(shift has no prior observation), every later row is `retCell`. -/
def retCol (c : List (Option ℚ)) : List Val :=
  match c with
  | [] => []
  | x :: xs => Val.na :: retColAux x xs

/-- The `MultiIndex.from_product` column labels: every (indicator, ticker)
pair, indicator-major. -/
def prodColumns (inds ticks : List String) : List (String × String) :=
  inds.flatMap (fun nm => ticks.map (fun t => (nm, t)))

/-- Common body of the two `calc_normalized_returns` variants, differing
only in the labelling of the unique level-0 names (`label`). Select the
translated indicator blocks, compute per-column returns, and rebuild the
panel with `MultiIndex.from_product` labels. The rebuild raises ValueError
(`none`) when the data column count does not match the product of the
unique level values (duplicated indicators or tickers). -/
def calcAux (label : String → String) (p : PricePanel) (sel : List String) :
    Option RPanel :=
  (sel.mapM indicator_translation).bind (fun names =>
    (selectIndicators p names).bind (fun s =>
      if names.Nodup ∧ s.tickers.Nodup ∧
          (s.cols.map retCol).length = (prodColumns (names.map label) s.tickers).length
      then some ⟨s.dates, List.zip (prodColumns (names.map label) s.tickers) (s.cols.map retCol)⟩
      else none))

/-- `calc_normalized_returns` of `src/locnguyen/download_data.py`: the
level-0 names of the output are the indicator names unchanged (its list
comprehension applies no suffix). -/
def calc_normalized_returns (p : PricePanel) (sel : List String) : Option RPanel :=
  calcAux id p sel

/-- `calc_normalized_returns` of the variant `src/download_data.py`: level-0
names are the indicator names suffixed with " Returns". -/
def calc_normalized_returns_dd (p : PricePanel) (sel : List String) : Option RPanel :=
  calcAux (fun nm => nm ++ " Returns") p sel

/-- Number of missing cells of a column (`isnull().sum()` per column). -/
def naCount (c : List Val) : ℕ := (c.filter (fun v => v.isNA)).length

/-- Number of non-missing cells of a column (what `dropna`'s `thresh`
counts). -/
def nonNACount (c : List Val) : ℕ := (c.filter (fun v => !v.isNA)).length

/-- The drop report printed by step 1 of `preprocess_returns_df` (line 145):
the columns whose missing count is at least `totalDates * θ`. Note the
`>=`, while the actual filter below keeps a column with non-missing count
at least `totalDates * (1-θ)`. -/
def step1_report (p : RPanel) (θ : ℚ) : List (String × String) :=
  (p.cols.filter (fun c =>
    decide ((p.dates.length : ℚ) * θ ≤ (naCount c.2 : ℚ)))).map (fun c => c.1)

/-- Step 1 of `preprocess_returns_df`:
`dropna(axis='columns', thresh=len(index)*(1-θ))` keeps exactly the
columns with at least `len(index)*(1-θ)` non-missing values. -/
def step1Filter (p : RPanel) (θ : ℚ) : RPanel :=
  ⟨p.dates, p.cols.filter (fun c =>
    decide ((p.dates.length : ℚ) * (1 - θ) ≤ (nonNACount c.2 : ℚ)))⟩

/-- Forward-fill of one column with the most recent prior non-missing value
(`last` is that value, initially NaN so that a leading missing run stays
missing). -/
def ffillAux (last : Val) : List Val → List Val
  | [] => []
  | v :: vs => (if v.isNA then last else v) :: ffillAux (if v.isNA then last else v) vs

/-- `fillna(method='ffill')` on one column. -/
def ffillCol (c : List Val) : List Val := ffillAux Val.na c

/-- Step 2 of `preprocess_returns_df`: forward-fill every column. -/
def ffillPanel (p : RPanel) : RPanel :=
  ⟨p.dates, p.cols.map (fun c => (c.1, ffillCol c.2))⟩

/-- Positional filter: keep the elements whose position satisfies `P`
(`i` is the position of the head). -/
def filterIdxAux (P : ℕ → Bool) (i : ℕ) : List α → List α
  | [] => []
  | a :: as => if P i then a :: filterIdxAux P (i + 1) as else filterIdxAux P (i + 1) as

/-- Positional filter starting at position 0. -/
def filterIdx (P : ℕ → Bool) (l : List α) : List α := filterIdxAux P 0 l

/-- Row `r` survives `dropna(axis='index', how='all')`: some column has a
non-missing value there. -/
def rowKept (p : RPanel) (r : ℕ) : Bool :=
  p.cols.any (fun c => !(c.2.getD r Val.na).isNA)

/-- Step 3 of `preprocess_returns_df`: `dropna(axis='index', how='all')`
drops exactly the rows in which every column is missing. -/
def dropAllNARows (p : RPanel) : RPanel :=
  ⟨filterIdx (rowKept p) p.dates, p.cols.map (fun c => (c.1, filterIdx (rowKept p) c.2))⟩

/-- `pd.Series.first_valid_index` position search. -/
def firstValidAux (i : ℕ) : List Val → Option ℕ
  | [] => none
  | v :: vs => if v.isNA then firstValidAux (i + 1) vs else some i

/-- `pd.Series.first_valid_index`: the date label of the first non-missing
cell of a column (`none` for an all-missing column). -/
def fvDate (dates : List ℕ) (c : List Val) : Option ℕ :=
  (firstValidAux 0 c).bind (fun i => dates.get? i)

/-- Step 4 of `preprocess_returns_df`: read `first_date = index[0]`
(IndexError, i.e. `none`, on an empty index) and drop every column whose
first valid date differs from it. -/
def lateStartFilter (p : RPanel) : Option RPanel :=
  match p.dates with
  | [] => none
  | d0 :: _ =>
      some ⟨p.dates, p.cols.filter (fun c => decide (fvDate p.dates c.2 = some d0))⟩

/-- The drop report printed by step 4 (line 156): labels of the columns
whose first valid date differs from the panel's first date. -/
def lateStart_report (p : RPanel) : List (String × String) :=
  match p.dates with
  | [] => []
  | d0 :: _ =>
      (p.cols.filter (fun c => decide (fvDate p.dates c.2 ≠ some d0))).map (fun c => c.1)

/-- The working panel after steps 1-3 of `preprocess_returns_df`. -/
def step3Panel (p : RPanel) (θ : ℚ) : RPanel :=
  dropAllNARows (ffillPanel (step1Filter p θ))

/-- `StockUniverse.preprocess_returns_df` acting on `self.returns_df`
(= `p`) with `nathreshold_ticker` (= `θ`), producing `self.clean_df`:
ticker-missingness filter, forward-fill, all-missing row drop, late-start
ticker filter. `none` models the IndexError on `index[0]` when every row
was dropped. -/
def preprocess_returns_df (p : RPanel) (θ : ℚ) : Option RPanel :=
  lateStartFilter (step3Panel p θ)

/-! Concrete data used by witnesses and counterexamples. -/

/-- A two-date one-ticker price panel with a zero price followed by a
nonzero one (denominator-zero case for the return formula). -/
def exPriceDiv : PricePanel := ⟨[0, 1], ["Adj Close"], ["AAPL"], [[some 0, some 1]]⟩

/-- A two-date one-ticker price panel with ordinary nonzero prices. -/
def exPrice : PricePanel := ⟨[0, 1], ["Adj Close"], ["AAPL"], [[some 2, some 3]]⟩

/-- A two-date one-ticker price panel with prices 1 then 2. -/
def exPrice9 : PricePanel := ⟨[0, 1], ["Adj Close"], ["AAPL"], [[some 1, some 2]]⟩

/-- The return panel of `exPrice (prices 2 then 3)`: missing first, then 1/2. -/
def exRetW : RPanel := ⟨[0, 1], [(("Adj Close", "AAPL"), [Val.na, Val.fin (1/2)])]⟩

/-- A four-date return panel whose ticker X has exactly one missing cell:
with threshold 1/4 its missing count is exactly `0.25 * 4`. -/
def exRet2 : RPanel :=
  ⟨[0, 1, 2, 3],
   [(("R", "X"), [Val.na, Val.fin 1, Val.fin 2, Val.fin 3]),
    (("R", "Y"), [Val.fin 1, Val.fin 1, Val.fin 1, Val.fin 1])]⟩

/-- A two-date return panel whose first row has one missing and one present
value (so the row is not all-missing). -/
def exRet4 : RPanel :=
  ⟨[0, 1],
   [(("R", "A"), [Val.na, Val.fin 1]),
    (("R", "B"), [Val.fin 2, Val.fin 3])]⟩

/-- A three-date return panel: ticker A starts at date 1, ticker B at date 2. -/
def exRet3 : RPanel :=
  ⟨[0, 1, 2],
   [(("R", "A"), [Val.na, Val.fin 1, Val.fin 2]),
    (("R", "B"), [Val.na, Val.na, Val.fin 5])]⟩

/-- The clean panel that `preprocess_returns_df exRet3 (2/3)` produces. -/
def exRet3Clean : RPanel := ⟨[1, 2], [(("R", "A"), [Val.fin 1, Val.fin 2])]⟩

/-- A two-date panel for the late-start filter: A valid from date 0, B from
date 1. -/
def exRet5 : RPanel :=
  ⟨[0, 1],
   [(("R", "A"), [Val.fin 1, Val.fin 2]),
    (("R", "B"), [Val.na, Val.fin 3])]⟩

/-- The panel the late-start filter leaves of `exRet5`: only ticker A. -/
def exRet5Q : RPanel := ⟨[0, 1], [(("R", "A"), [Val.fin 1, Val.fin 2])]⟩

/-- A fully clean nonempty return panel. -/
def exRet6 : RPanel := ⟨[0, 1], [(("R", "A"), [Val.fin 1, Val.fin 2])]⟩

/-- A (vacuously clean) return panel with two dates and no ticker columns. -/
def exRet6c : RPanel := ⟨[0, 1], []⟩

/-- An initial `StockUniverse` state holding `exPrice`. -/
def exStore : StockUniverse := ⟨[], 0, 0, "", exPrice, ⟨[], []⟩, ⟨[], []⟩⟩

/-- `exStore` after `store_pickle` recorded the filename. -/
def exStore2 : StockUniverse := { exStore with filename := "f.pkl" }

/-- The file system after `store_pickle exStore _ "f.pkl" ["A"]`. -/
def exFS2 : String → Option PricePanel :=
  fun f => if f = "f.pkl" then some exPrice else none

/-- The state `read_pickle exStore2 exFS2 "f.pkl" true` produces. -/
def exRead : StockUniverse :=
  { exStore with filename := "f.pkl", prices_df := exPrice,
                 tickers := ["AAPL"], startDate := 0, endDate := 1 }

/-- A file system holding `exPrice9` at "g.pkl". -/
def exFS10 : String → Option PricePanel :=
  fun f => if f = "g.pkl" then some exPrice9 else none

/-- The state `read_pickle exStore exFS10 "g.pkl" false` produces: only the
panel and the filename change. -/
def exRead10 : StockUniverse :=
  { exStore with filename := "g.pkl", prices_df := exPrice9 }

/-- A constant market-data oracle returning `exPrice9`. -/
def yfConst : List String → ℕ → ℕ → PricePanel := fun _ _ _ => exPrice9

/-! Helper lemmas about the positional filter, forward-fill and first-valid
search used by the cleaning pipeline. -/

theorem filterIdxAux_sublist (P : ℕ → Bool) (i : ℕ) (l : List α) :
    List.Sublist (filterIdxAux P i l) l := by
  induction l generalizing i with
  | nil => simp [filterIdxAux]
  | cons a as ih =>
    simp only [filterIdxAux]
    by_cases h : P i
    · simp only [if_pos h]
      exact (ih (i + 1)).cons₂ a
    · simp only [if_neg h]
      exact (ih (i + 1)).cons a

theorem filterIdxAux_eq_self (P : ℕ → Bool) (l : List α) :
    ∀ i, (∀ j, j < l.length → P (i + j) = true) → filterIdxAux P i l = l := by
  induction l with
  | nil => intro i _; simp [filterIdxAux]
  | cons a as ih =>
    intro i h
    have h0 : P i = true := by simpa using h 0 (by simp)
    simp only [filterIdxAux, h0, if_true]
    rw [ih (i + 1) ?_]
    intro j hj
    have e : i + 1 + j = i + (j + 1) := by omega
    rw [e]
    exact h (j + 1) (by simpa using Nat.succ_lt_succ hj)

theorem ffillAux_length (last : Val) (c : List Val) :
    (ffillAux last c).length = c.length := by
  induction c generalizing last with
  | nil => rfl
  | cons v vs ih => simp [ffillAux, ih]

theorem ffillAux_all_valid (c : List Val) :
    ∀ last, last.isNA = false → ∀ w ∈ ffillAux last c, w.isNA = false := by
  induction c with
  | nil => intro last _ w hw; simp [ffillAux] at hw
  | cons v vs ih =>
    intro last h w hw
    have hd : (if v.isNA then last else v).isNA = false := by
      by_cases hv : v.isNA = true
      · simpa [hv] using h
      · simp only [Bool.not_eq_true] at hv
        simp [hv]
    simp only [ffillAux] at hw
    rcases List.mem_cons.mp hw with h1 | h1
    · rw [h1]; exact hd
    · exact ih _ hd w h1

theorem ffillAux_pairwise (c : List Val) :
    ∀ last, (ffillAux last c).Pairwise (fun a b => a.isNA = false → b.isNA = false) := by
  induction c with
  | nil => intro last; simp [ffillAux]
  | cons v vs ih =>
    intro last
    simp only [ffillAux]
    refine List.pairwise_cons.mpr ⟨?_, ih _⟩
    intro b hb hhd
    exact ffillAux_all_valid vs _ hhd b hb

theorem pairwise_all_valid_of_head (v : Val) (vs : List Val)
    (hp : (v :: vs).Pairwise (fun a b => a.isNA = false → b.isNA = false))
    (hv : v.isNA = false) : ∀ w ∈ v :: vs, w.isNA = false := by
  intro w hw
  rcases List.mem_cons.mp hw with h1 | h1
  · rw [h1]; exact hv
  · exact (List.pairwise_cons.mp hp).1 w h1 hv

theorem firstValidAux_le (c : List Val) :
    ∀ i j, firstValidAux i c = some j → i ≤ j := by
  induction c with
  | nil => intro i j h; simp [firstValidAux] at h
  | cons v vs ih =>
    intro i j h
    simp only [firstValidAux] at h
    by_cases hv : v.isNA = true
    · rw [if_pos hv] at h
      exact Nat.le_of_succ_le (ih (i + 1) j h)
    · rw [if_neg hv] at h
      injection h with h
      omega

theorem firstValidAux_zero_head (c : List Val) (h : firstValidAux 0 c = some 0) :
    ∃ v vs, c = v :: vs ∧ v.isNA = false := by
  cases c with
  | nil => simp [firstValidAux] at h
  | cons v vs =>
    by_cases hv : v.isNA = true
    · exfalso
      simp only [firstValidAux, if_pos hv] at h
      have := firstValidAux_le vs 1 0 h
      omega
    · exact ⟨v, vs, rfl, by simpa using hv⟩

/-- Core of the cleaning postcondition: every column the pipeline returns is
entirely non-missing (the late-start filter only keeps columns whose first
valid date is the panel's first date, and after forward-fill validity is
monotone along each column). -/
theorem preprocess_cols_valid (p : RPanel) (θ : ℚ) (q : RPanel)
    (hnd : p.dates.Nodup)
    (h : preprocess_returns_df p θ = some q) :
    ∀ c ∈ q.cols, ∀ v ∈ c.2, v.isNA = false := by
  intro c hc v hv
  rcases hq : (step3Panel p θ).dates with _ | ⟨d0, rest⟩
  · rw [preprocess_returns_df] at h
    simp only [lateStartFilter, hq] at h
    exact Option.noConfusion h
  · rw [preprocess_returns_df] at h
    simp only [lateStartFilter, hq] at h
    rw [Option.some.injEq] at h
    subst h
    obtain ⟨hc3, hpred⟩ := List.mem_filter.mp hc
    have hfv : fvDate (d0 :: rest) c.2 = some d0 := of_decide_eq_true hpred
    have hc3' := hc3
    simp only [step3Panel, dropAllNARows, ffillPanel, step1Filter] at hc3'
    obtain ⟨c1, hc1, hceq1⟩ := List.mem_map.mp hc3'
    obtain ⟨c0, hc0, hceq0⟩ := List.mem_map.mp hc1
    have hpw : c.2.Pairwise (fun a b => a.isNA = false → b.isNA = false) := by
      rw [← hceq1, ← hceq0]
      exact List.Pairwise.sublist (filterIdxAux_sublist _ _ _) (ffillAux_pairwise c0.2 Val.na)
    have hsub : List.Sublist (step3Panel p θ).dates p.dates := by
      simp only [step3Panel, dropAllNARows, ffillPanel, step1Filter]
      exact filterIdxAux_sublist _ _ _
    have hnd3 : (d0 :: rest : List ℕ).Nodup := by
      rw [← hq]
      exact List.Nodup.sublist hsub hnd
    obtain ⟨iFV, hfv1, hfv2⟩ := Option.bind_eq_some.mp hfv
    obtain ⟨hlt, -⟩ := List.get?_eq_some.mp hfv2
    have h0 : (d0 :: rest : List ℕ).get? 0 = some d0 := rfl
    have hiFV : iFV = 0 := List.get?_inj hlt hnd3 (hfv2.trans h0.symm)
    rw [hiFV] at hfv1
    obtain ⟨v0, vs0, hcons, hv0⟩ := firstValidAux_zero_head c.2 hfv1
    have hall := pairwise_all_valid_of_head v0 vs0 (hcons ▸ hpw) hv0
    exact hall v (hcons ▸ hv)

/-- C3: for every return panel (with the data model's unique date index) and
every threshold, whenever `preprocess_returns_df` returns a panel at all,
that panel contains zero missing values; the only failure mode is the
IndexError (modelled as `none`) when every row is dropped, so a panel with
a residual missing cell is never returned. The code defines no
`ResidualMissingDataError`, but the claimed disjunction holds because the
first disjunct always does. -/
theorem C3_clean_postcondition (p : RPanel) (θ : ℚ) (q : RPanel)
    (hnd : p.dates.Nodup) (h : preprocess_returns_df p θ = some q) :
    q.clean = true := by
  have hall := preprocess_cols_valid p θ q hnd h
  unfold RPanel.clean
  rw [List.all_eq_true]
  intro c hc
  rw [List.all_eq_true]
  intro v hv
  simpa using hall c hc v hv

unseal Rat.add Rat.sub Rat.mul Rat.inv in
/-- Witness for C3: the pipeline on `exRet3` with threshold 2/3 returns
`exRet3Clean`, which indeed has no missing cell. -/
theorem C3_witness : RPanel.clean exRet3Clean = true :=
  C3_clean_postcondition exRet3 (2/3) exRet3Clean (by decide) (by decide)

/-- C5: step 4 of the cleaning pipeline with the reference date `d0` (the
panel's first date): every column whose first non-missing observation date
is later than `d0` is removed, and every column whose first non-missing
observation is at `d0` is kept. -/
theorem C5_late_start_filter (p q : RPanel) (d0 : ℕ)
    (h : lateStartFilter p = some q) (hd : p.dates.head? = some d0) :
    (∀ c ∈ p.cols, ∀ d, fvDate p.dates c.2 = some d → d0 < d → c ∉ q.cols) ∧
    (∀ c ∈ p.cols, fvDate p.dates c.2 = some d0 → c ∈ q.cols) := by
  rcases hq : p.dates with _ | ⟨e0, rest⟩
  · rw [hq] at hd; simp at hd
  · rw [hq] at hd
    simp only [List.head?_cons, Option.some.injEq] at hd
    subst hd
    simp only [lateStartFilter, hq] at h
    rw [Option.some.injEq] at h
    subst h
    constructor
    · intro c _ d hfvd hlt hmem
      obtain ⟨-, hpred⟩ := List.mem_filter.mp hmem
      have heq : fvDate (e0 :: rest) c.2 = some e0 := of_decide_eq_true hpred
      rw [hfvd] at heq
      rw [Option.some.injEq] at heq
      omega
    · intro c hc hfv
      exact List.mem_filter.mpr ⟨hc, decide_eq_true hfv⟩

/-- Witness for C5: on `exRet5` ticker A (first valid at the reference date
0) is kept and ticker B (first valid at date 1) is dropped. -/
theorem C5_witness :
    ((("R", "A"), [Val.fin 1, Val.fin 2]) ∈ exRet5Q.cols) ∧
    ((("R", "B"), [Val.na, Val.fin 3]) ∉ exRet5Q.cols) := by
  have h := C5_late_start_filter exRet5 exRet5Q 0 (by decide) (by decide)
  exact ⟨h.2 (("R", "A"), [Val.fin 1, Val.fin 2]) (by decide) (by decide),
         h.1 (("R", "B"), [Val.na, Val.fin 3]) (by decide) 1 (by decide) (by decide)⟩

theorem getD_mem_of_lt (l : List α) (d : α) : ∀ j, j < l.length → l.getD j d ∈ l := by
  induction l with
  | nil => intro j h; simp at h
  | cons a as ih =>
    intro j h
    cases j with
    | zero => simp
    | succ j1 =>
      simp only [List.getD_cons_succ]
      exact List.mem_cons_of_mem a (ih j1 (by simpa using Nat.lt_of_succ_lt_succ h))

theorem map_eq_self_of (l : List α) (f : α → α) (h : ∀ a ∈ l, f a = a) :
    l.map f = l := by
  induction l with
  | nil => rfl
  | cons a as ih =>
    simp only [List.map_cons]
    rw [h a (by simp), ih (fun b hb => h b (by simp [hb]))]

theorem ffillAux_eq_self (c : List Val) :
    ∀ last, (∀ v ∈ c, v.isNA = false) → ffillAux last c = c := by
  induction c with
  | nil => intro last _; rfl
  | cons v vs ih =>
    intro last h
    have hv : v.isNA = false := h v (by simp)
    simp only [ffillAux, hv, Bool.false_eq_true, if_false]
    rw [ih v (fun w hw => h w (by simp [hw]))]

theorem naCount_add_nonNACount (c : List Val) : naCount c + nonNACount c = c.length := by
  induction c with
  | nil => rfl
  | cons v vs ih =>
    simp only [naCount, nonNACount, List.filter_cons, List.length_cons] at ih ⊢
    by_cases hv : v.isNA = true <;> simp [hv] <;> omega

theorem clean_of_cols_valid (q : RPanel)
    (hall : ∀ c ∈ q.cols, ∀ v ∈ c.2, v.isNA = false) : q.clean = true := by
  unfold RPanel.clean
  rw [List.all_eq_true]
  intro c hc
  rw [List.all_eq_true]
  intro v hv
  simp [hall c hc v hv]

/-- Positional filtering of several same-length lists by the same position
predicate is synchronized: the element at position `r` of every filtered
list comes from the same source position `j`, a position satisfying the
predicate. -/
theorem filterIdxAux_sync (K : ℕ → Bool) :
    ∀ (dates : List ℕ) (cols : List ((String × String) × List Val)) (i r d : ℕ),
    (∀ c ∈ cols, c.2.length = dates.length) →
    (filterIdxAux K i dates).get? r = some d →
    ∃ j, dates.get? j = some d ∧ K (i + j) = true ∧
      ∀ c ∈ cols, (filterIdxAux K i c.2).get? r = c.2.get? j := by
  intro dates
  induction dates with
  | nil =>
    intro cols i r d _ h
    simp [filterIdxAux] at h
  | cons d0 ds ih =>
    intro cols i r d hlen h
    have htails : ∀ c ∈ cols.map (fun c => (c.1, c.2.tail)), c.2.length = ds.length := by
      intro c hc
      obtain ⟨c0, hc0, heq⟩ := List.mem_map.mp hc
      have hl := hlen c0 hc0
      rw [← heq]
      simp only [List.length_tail, hl, List.length_cons]
      omega
    have hsplit : ∀ c ∈ cols, ∃ v rest, c.2 = v :: rest := by
      intro c hc
      have hl := hlen c hc
      cases hc2 : c.2 with
      | nil => rw [hc2] at hl; simp at hl
      | cons v rest => exact ⟨v, rest, rfl⟩
    by_cases hKi : K i = true
    · simp only [filterIdxAux, hKi, if_true] at h
      cases r with
      | zero =>
        rw [List.get?_cons_zero, Option.some.injEq] at h
        refine ⟨0, by simp [h], by simpa using hKi, ?_⟩
        intro c hc
        obtain ⟨v, rest, hv⟩ := hsplit c hc
        rw [hv]
        simp [filterIdxAux, hKi]
      | succ r1 =>
        rw [List.get?_cons_succ] at h
        obtain ⟨j, hj1, hj2, hj3⟩ :=
          ih (cols.map (fun c => (c.1, c.2.tail))) (i + 1) r1 d htails h
        refine ⟨j + 1, by simpa using hj1, ?_, ?_⟩
        · have e : i + (j + 1) = i + 1 + j := by omega
          rw [e]; exact hj2
        · intro c hc
          obtain ⟨v, rest, hv⟩ := hsplit c hc
          have hthis := hj3 (c.1, c.2.tail) (List.mem_map_of_mem _ hc)
          rw [hv] at hthis ⊢
          simp only [List.tail_cons] at hthis
          simp only [filterIdxAux, hKi, if_true, List.get?_cons_succ]
          exact hthis
    · simp only [filterIdxAux, hKi, Bool.false_eq_true, if_false] at h
      obtain ⟨j, hj1, hj2, hj3⟩ :=
        ih (cols.map (fun c => (c.1, c.2.tail))) (i + 1) r d htails h
      refine ⟨j + 1, by simpa using hj1, ?_, ?_⟩
      · have e : i + (j + 1) = i + 1 + j := by omega
        rw [e]; exact hj2
      · intro c hc
        obtain ⟨v, rest, hv⟩ := hsplit c hc
        have hthis := hj3 (c.1, c.2.tail) (List.mem_map_of_mem _ hc)
        rw [hv] at hthis ⊢
        simp only [List.tail_cons] at hthis
        have hKf : K i = false := by simpa using hKi
        simp only [filterIdxAux, hKf, Bool.false_eq_true, if_false, List.get?_cons_succ]
        exact hthis

theorem step2_cols_length (p : RPanel) (θ : ℚ) (hwf : p.WF) :
    ∀ c ∈ (ffillPanel (step1Filter p θ)).cols,
      c.2.length = (ffillPanel (step1Filter p θ)).dates.length := by
  intro c hc
  simp only [ffillPanel, step1Filter] at hc ⊢
  obtain ⟨c0, hc0, hceq⟩ := List.mem_map.mp hc
  rw [← hceq]
  simp only [ffillCol, ffillAux_length]
  exact hwf c0 (List.mem_of_mem_filter hc0)

unseal Rat.add Rat.sub Rat.mul Rat.inv in
/-- C4 counterexample: on `exRet4` with threshold 3/5 no ticker is dropped
in step 1, forward-fill changes nothing, and step 3
(`dropna(axis='index', how='all')`) keeps the first date row even though
it contains a missing value (ticker A), because ticker B has a value
there; the claim that every leading row containing at least one missing
value is dropped is false. -/
theorem C4_counterexample :
    (step3Panel exRet4 (3/5)).dates = [0, 1] ∧
    RPanel.cell (step3Panel exRet4 (3/5)) 0 0 = Val.na := by decide

/-- C4 (amended): step 3 drops exactly the date rows in which every value is
missing, so every row it keeps still has at least one non-missing value
(a leading row with some, but not all, values missing is kept, contrary
to the original claim); the guarantee that the first remaining row is free
of missing values holds exactly for the columns that survive the step-4
late-start filter, whose output is entirely non-missing. -/
theorem C4_leading_rows_amended (p : RPanel) (θ : ℚ)
    (hwf : p.WF) (hnd : p.dates.Nodup) :
    (∀ r, r < (step3Panel p θ).dates.length → rowKept (step3Panel p θ) r = true) ∧
    (∀ q, lateStartFilter (step3Panel p θ) = some q → q.clean = true) := by
  constructor
  · intro r hr
    obtain ⟨d, hd⟩ : ∃ d, (step3Panel p θ).dates.get? r = some d :=
      ⟨_, List.get?_eq_get hr⟩
    have hdd : (filterIdxAux (rowKept (ffillPanel (step1Filter p θ))) 0
        (ffillPanel (step1Filter p θ)).dates).get? r = some d := hd
    obtain ⟨j, hj1, hj2, hj3⟩ :=
      filterIdxAux_sync (rowKept (ffillPanel (step1Filter p θ)))
        (ffillPanel (step1Filter p θ)).dates (ffillPanel (step1Filter p θ)).cols
        0 r d (step2_cols_length p θ hwf) hdd
    rw [Nat.zero_add] at hj2
    unfold rowKept at hj2
    obtain ⟨c, hcmem, hcval⟩ := List.any_eq_true.mp hj2
    have hvNA : (c.2.getD j Val.na).isNA = false := by
      simpa using hcval
    have hjlt : j < c.2.length := by
      by_contra hge
      push_neg at hge
      rw [List.getD_eq_get?, List.get?_eq_none.mpr hge] at hvNA
      simp [Val.isNA] at hvNA
    have hget : c.2.get? j = some (c.2.getD j Val.na) := by
      rw [List.getD_eq_get?, List.get?_eq_get hjlt]
      rfl
    unfold rowKept
    apply List.any_eq_true.mpr
    refine ⟨(c.1, filterIdx (rowKept (ffillPanel (step1Filter p θ))) c.2),
            List.mem_map_of_mem _ hcmem, ?_⟩
    have hc3get : (filterIdxAux (rowKept (ffillPanel (step1Filter p θ))) 0 c.2).get? r =
        c.2.get? j := hj3 c hcmem
    rw [hget] at hc3get
    simp only [filterIdx]
    rw [List.getD_eq_get?, hc3get]
    simpa using hvNA
  · intro q hq
    exact clean_of_cols_valid q (preprocess_cols_valid p θ q hnd hq)

unseal Rat.add Rat.sub Rat.mul Rat.inv in
/-- Witness for C4 (amended): on `exRet3` with threshold 2/3 every row
surviving step 3 has a non-missing value, and the step-4 output
`exRet3Clean` is entirely non-missing. -/
theorem C4_witness :
    rowKept (step3Panel exRet3 (2/3)) 0 = true ∧ RPanel.clean exRet3Clean = true := by
  have h := C4_leading_rows_amended exRet3 (2/3) (by unfold RPanel.WF; decide) (by decide)
  exact ⟨h.1 0 (by decide), h.2 exRet3Clean (by decide)⟩

unseal Rat.add Rat.sub Rat.mul Rat.inv in
/-- C2 counterexample: on `exRet2` (4 dates, threshold 1/4) ticker X has
exactly `0.25 * 4 = 1` missing value. The claim says it is dropped, but
`dropna(axis='columns', thresh=4*(1-0.25))` keeps it, since its
non-missing count 3 meets the threshold `3`. The step-1 printed report
(line 145, computed with `>=`) nevertheless lists X as dropped. -/
theorem C2_counterexample :
    (naCount [Val.na, Val.fin 1, Val.fin 2, Val.fin 3] : ℚ) =
      (1/4) * (exRet2.dates.length : ℚ) ∧
    (("R", "X"), [Val.na, Val.fin 1, Val.fin 2, Val.fin 3]) ∈ (step1Filter exRet2 (1/4)).cols ∧
    ("R", "X") ∈ step1_report exRet2 (1/4) := by decide

/-- C2 (amended): the step-1 ticker filter KEEPS a ticker whose missing
count equals `naThresholdTicker * totalDates` and, in general, keeps
exactly the tickers with missing count ≤ `naThresholdTicker * totalDates`
(equivalently non-missing count ≥ `(1-naThresholdTicker) * totalDates`);
a ticker is dropped only when its missing count strictly exceeds the
boundary. The printed report of step 1 still uses `>=` and so lists the
boundary ticker as dropped even though it is kept. -/
theorem C2_threshold_amended (p : RPanel) (θ : ℚ) (c : (String × String) × List Val)
    (hwf : p.WF) (hc : c ∈ p.cols) :
    c ∈ (step1Filter p θ).cols ↔ (naCount c.2 : ℚ) ≤ θ * (p.dates.length : ℚ) := by
  have h1 : naCount c.2 + nonNACount c.2 = p.dates.length := by
    rw [naCount_add_nonNACount]; exact hwf c hc
  have hsum : (naCount c.2 : ℚ) + (nonNACount c.2 : ℚ) = (p.dates.length : ℚ) := by
    exact_mod_cast h1
  unfold step1Filter
  rw [List.mem_filter]
  constructor
  · rintro ⟨-, hpred⟩
    have hle : ((p.dates.length : ℕ) : ℚ) * (1 - θ) ≤ ((nonNACount c.2 : ℕ) : ℚ) :=
      of_decide_eq_true hpred
    ring_nf at hle
    linarith [hsum, hle]
  · intro hna
    refine ⟨hc, decide_eq_true ?_⟩
    have : ((p.dates.length : ℕ) : ℚ) * (1 - θ) ≤ ((nonNACount c.2 : ℕ) : ℚ) := by
      ring_nf
      linarith [hsum, hna]
    exact this

unseal Rat.add Rat.sub Rat.mul Rat.inv in
/-- Witness for C2 (amended): ticker X of `exRet2`, with missing count
exactly at the boundary, is kept by step 1. -/
theorem C2_witness :
    (("R", "X"), [Val.na, Val.fin 1, Val.fin 2, Val.fin 3]) ∈ (step1Filter exRet2 (1/4)).cols := by
  have h := C2_threshold_amended exRet2 (1/4)
    (("R", "X"), [Val.na, Val.fin 1, Val.fin 2, Val.fin 3])
    (by unfold RPanel.WF; decide) (by decide)
  exact h.mpr (by decide)

unseal Rat.add Rat.sub Rat.mul Rat.inv in
/-- C6 counterexample: a panel with two dates and no ticker columns has no
missing values, yet with the valid threshold 1/2 the pipeline does not
return it unchanged: `dropna(how='all')` drops every row of a
zero-column frame, and `index[0]` then raises IndexError (modelled as
`none`). -/
theorem C6_counterexample :
    RPanel.clean exRet6c = true ∧ (0 : ℚ) < 1/2 ∧ (1 : ℚ)/2 < 1 ∧
    preprocess_returns_df exRet6c (1/2) = none := by decide

/-- C6 (amended): on a panel with at least one date row, at least one ticker
column, and no missing values, the pipeline returns the panel unchanged
for every threshold with `0 < θ` (in particular every valid `θ` in
(0,1)), and both filtering steps drop and report no tickers. The original
claim fails only on degenerate clean panels with no rows or no columns,
where `index[0]` raises IndexError instead. -/
theorem C6_idempotence_amended (p : RPanel) (θ : ℚ)
    (hwf : p.WF) (hd : p.dates ≠ []) (hcols : p.cols ≠ [])
    (hclean : p.clean = true) (hθ0 : 0 < θ) (_hθ1 : θ < 1) :
    preprocess_returns_df p θ = some p ∧
    step1_report p θ = [] ∧
    lateStart_report (step3Panel p θ) = [] := by
  have hvalid : ∀ c ∈ p.cols, ∀ v ∈ c.2, v.isNA = false := by
    intro c hc v hv
    have h1 := List.all_eq_true.mp hclean c hc
    have h2 := List.all_eq_true.mp h1 v hv
    simpa using h2
  have hn : 0 < p.dates.length := List.length_pos.mpr hd
  have hnQ : (0 : ℚ) < (p.dates.length : ℚ) := by exact_mod_cast hn
  have hnonNA : ∀ c ∈ p.cols, nonNACount c.2 = c.2.length := by
    intro c hc
    unfold nonNACount
    rw [List.filter_eq_self.mpr (fun v hv => by simp [hvalid c hc v hv])]
  have hstep1 : step1Filter p θ = p := by
    unfold step1Filter
    rw [List.filter_eq_self.mpr ?_]
    intro c hc
    apply decide_eq_true
    rw [hnonNA c hc, hwf c hc]
    nlinarith [hnQ, hθ0]
  have hstep2 : ffillPanel p = p := by
    unfold ffillPanel
    rw [map_eq_self_of]
    intro c hc
    have hf : ffillCol c.2 = c.2 := ffillAux_eq_self c.2 Val.na (hvalid c hc)
    rw [hf]
  have hrows : ∀ j, j < p.dates.length → rowKept p j = true := by
    intro j hj
    unfold rowKept
    apply List.any_eq_true.mpr
    obtain ⟨c0, hc0⟩ : ∃ c, c ∈ p.cols := by
      cases hp : p.cols with
      | nil => exact absurd hp hcols
      | cons a as => exact ⟨a, by simp [hp]⟩
    refine ⟨c0, hc0, ?_⟩
    have hjlen : j < c0.2.length := by rw [hwf c0 hc0]; exact hj
    have hmem := getD_mem_of_lt c0.2 Val.na j hjlen
    have hval := hvalid c0 hc0 _ hmem
    simpa using hval
  have hstep3 : dropAllNARows p = p := by
    unfold dropAllNARows
    have hdates : filterIdx (rowKept p) p.dates = p.dates := by
      unfold filterIdx
      apply filterIdxAux_eq_self
      intro j hj
      simpa using hrows j hj
    have hcols2 : p.cols.map (fun c => (c.1, filterIdx (rowKept p) c.2)) = p.cols := by
      apply map_eq_self_of
      intro c hc
      have : filterIdx (rowKept p) c.2 = c.2 := by
        unfold filterIdx
        apply filterIdxAux_eq_self
        intro j hj
        rw [hwf c hc] at hj
        simpa using hrows j hj
      rw [this]
    rw [hdates, hcols2]
  have hstep3P : step3Panel p θ = p := by
    unfold step3Panel
    rw [hstep1, hstep2, hstep3]
  obtain ⟨d0, rest, hd0⟩ : ∃ d0 rest, p.dates = d0 :: rest := by
    cases hp : p.dates with
    | nil => exact absurd hp hd
    | cons a as => exact ⟨a, as, rfl⟩
  have hfv : ∀ c ∈ p.cols, fvDate p.dates c.2 = some d0 := by
    intro c hc
    obtain ⟨v, vs, hv⟩ : ∃ v vs, c.2 = v :: vs := by
      have hl := hwf c hc
      cases hc2 : c.2 with
      | nil => rw [hc2] at hl; rw [hd0] at hl; simp at hl
      | cons v vs => exact ⟨v, vs, rfl⟩
    have hvNA : v.isNA = false := hvalid c hc v (by simp [hv])
    unfold fvDate
    rw [hv]
    simp only [firstValidAux, hvNA, Bool.false_eq_true, if_false]
    rw [hd0]
    rfl
  have hstep4 : lateStartFilter p = some p := by
    unfold lateStartFilter
    split
    · rename_i heq
      rw [heq] at hd0
      exact absurd hd0 (by simp)
    · rename_i e0 rest2 heq
      have he0 : e0 = d0 := by
        have h12 := hd0.symm.trans heq
        injection h12 with h1 _
        exact h1.symm
      rw [List.filter_eq_self.mpr ?_]
      intro c hc
      apply decide_eq_true
      rw [he0]
      exact hfv c hc
  refine ⟨?_, ?_, ?_⟩
  · unfold preprocess_returns_df
    rw [hstep3P, hstep4]
  · unfold step1_report
    rw [List.filter_eq_nil_iff.mpr ?_]
    · simp
    · intro c hc
      simp only [decide_eq_true_eq, not_le]
      unfold naCount
      rw [List.filter_eq_nil_iff.mpr (fun v hv => by simp [hvalid c hc v hv])]
      simp only [List.length_nil, Nat.cast_zero]
      positivity
  · unfold lateStart_report
    rw [hstep3P]
    split
    · rfl
    · rename_i e0 rest2 heq
      have he0 : e0 = d0 := by
        have h12 := hd0.symm.trans heq
        injection h12 with h1 _
        exact h1.symm
      rw [List.filter_eq_nil_iff.mpr ?_]
      · rfl
      · intro c hc
        simp only [decide_eq_true_eq, Decidable.not_not, ne_eq]
        rw [he0]
        exact hfv c hc

unseal Rat.add Rat.sub Rat.mul Rat.inv in
/-- Witness for C6 (amended): the clean nonempty panel `exRet6` with
threshold 1/4 passes through the pipeline unchanged with empty drop
reports. -/
theorem C6_witness :
    preprocess_returns_df exRet6 (1/4) = some exRet6 ∧
    step1_report exRet6 (1/4) = [] ∧
    lateStart_report (step3Panel exRet6 (1/4)) = [] :=
  C6_idempotence_amended exRet6 (1/4) (by unfold RPanel.WF; decide) (by decide)
    (by decide) (by decide) (by decide) (by decide)

/-! Helper lemmas for `calc_normalized_returns`. -/

theorem zip_getD_snd (a : List α) :
    ∀ (b : List β) (j : ℕ) (x : α) (y : β), j < a.length → j < b.length →
      ((a.zip b).getD j (x, y)).2 = b.getD j y := by
  induction a with
  | nil => intro b j x y hj _; simp at hj
  | cons a0 as ih =>
    intro b j x y hj hb
    cases b with
    | nil => simp at hb
    | cons b0 bs =>
      cases j with
      | zero => simp [List.zip_cons_cons]
      | succ j1 =>
        simp only [List.zip_cons_cons, List.getD_cons_succ]
        exact ih bs j1 x y (by simpa using Nat.lt_of_succ_lt_succ hj)
          (by simpa using Nat.lt_of_succ_lt_succ hb)

theorem map_getD_lt (l : List γ) (f : γ → δ) (d : γ) (d2 : δ) :
    ∀ j, j < l.length → (l.map f).getD j d2 = f (l.getD j d) := by
  induction l with
  | nil => intro j h; simp at h
  | cons a as ih =>
    intro j h
    cases j with
    | zero => rfl
    | succ j1 =>
      simp only [List.map_cons, List.getD_cons_succ]
      exact ih j1 (by simpa using Nat.lt_of_succ_lt_succ h)

theorem retColAux_length (xs : List (Option ℚ)) :
    ∀ prev, (retColAux prev xs).length = xs.length := by
  induction xs with
  | nil => intro prev; rfl
  | cons x xs2 ih => intro prev; simp [retColAux, ih]

theorem retCol_length (c : List (Option ℚ)) : (retCol c).length = c.length := by
  cases c with
  | nil => rfl
  | cons x xs => simp [retCol, retColAux_length]

theorem retCol_getD_zero (c : List (Option ℚ)) (h : c ≠ []) :
    (retCol c).getD 0 Val.na = Val.na := by
  cases c with
  | nil => exact absurd rfl h
  | cons x xs => rfl

theorem retColAux_getD (xs : List (Option ℚ)) :
    ∀ (prev : Option ℚ) (r : ℕ), r < xs.length →
      (retColAux prev xs).getD r Val.na =
        retCell ((prev :: xs).getD r none) (xs.getD r none) := by
  induction xs with
  | nil => intro prev r h; simp at h
  | cons y ys ih =>
    intro prev r h
    cases r with
    | zero => rfl
    | succ r1 =>
      simp only [retColAux, List.getD_cons_succ]
      exact ih y r1 (by simpa using Nat.lt_of_succ_lt_succ h)

theorem retCol_getD (c : List (Option ℚ)) (t : ℕ) (ht : 1 ≤ t) (htl : t < c.length) :
    (retCol c).getD t Val.na = retCell (c.getD (t - 1) none) (c.getD t none) := by
  cases c with
  | nil => simp at htl
  | cons x xs =>
    cases t with
    | zero => omega
    | succ t1 =>
      simp only [retCol, List.getD_cons_succ, Nat.succ_sub_one]
      exact retColAux_getD xs x t1 (by simpa using Nat.lt_of_succ_lt_succ htl)

/-- The panel `calcAux` builds pairs the product labels with the per-column
returns of the selected panel, column by column. -/
theorem calcAux_col (label : String → String) (p : PricePanel) (sel names : List String)
    (s : PricePanel) (q : RPanel)
    (hn : sel.mapM indicator_translation = some names)
    (hs : selectIndicators p names = some s)
    (hq : calcAux label p sel = some q)
    (j : ℕ) (hj : j < s.cols.length) :
    q.dates = s.dates ∧
    (q.cols.getD j (("", ""), [])).2 = retCol (s.cols.getD j []) := by
  unfold calcAux at hq
  rw [hn, Option.some_bind, hs, Option.some_bind] at hq
  split at hq
  · rename_i hguard
    obtain ⟨hnd, hndt, hlen⟩ := hguard
    rw [Option.some.injEq] at hq
    subst hq
    refine ⟨rfl, ?_⟩
    have hjr : j < (s.cols.map retCol).length := by simpa using hj
    have hjp : j < (prodColumns (names.map label) s.tickers).length := by
      rw [← hlen]; exact hjr
    have hz := zip_getD_snd (prodColumns (names.map label) s.tickers)
      (s.cols.map retCol) j ("", "") [] hjp hjr
    have hm := map_getD_lt s.cols retCol [] [] j hj
    exact hz.trans hm
  · exact absurd hq (by simp)

unseal Rat.add Rat.sub Rat.mul Rat.inv in
/-- C1 counterexample: on a price panel whose prices at dates 0 and 1 are
both present (0 then 1), the return cell at date 1 divides by the zero
price: pandas produces +inf, which `isnull` does NOT count as missing, so
the claim that division by zero yields a missing value is false. -/
theorem C1_counterexample :
    (PricePanel.cell exPriceDiv 0 0).isSome = true ∧
    (PricePanel.cell exPriceDiv 1 0).isSome = true ∧
    PricePanel.cell exPriceDiv 0 0 = some 0 ∧
    calc_normalized_returns exPriceDiv ["A"] =
      some ⟨[0, 1], [(("Adj Close", "AAPL"), [Val.na, Val.pinf])]⟩ ∧
    Val.pinf.isNA = false := by decide

/-- C1 (amended): for every price panel, the return panel of
`calc_normalized_returns` keeps the input's date index; each column's
first value is missing; at any later date `t`, a missing price at `t` or
`t-1` yields a missing return; with both prices present and a nonzero
previous price the return is exactly `(price[t]-price[t-1])/price[t-1]`;
with a zero previous price the result follows IEEE division: missing
(NaN) if `price[t]` is also 0, `+inf` if positive, `-inf` if negative —
not missing. No error is raised in any of these cases. -/
theorem C1_returns_formula_amended (p : PricePanel) (sel names : List String)
    (s : PricePanel) (q : RPanel) (j t : ℕ)
    (hn : sel.mapM indicator_translation = some names)
    (hs : selectIndicators p names = some s)
    (hq : calc_normalized_returns p sel = some q)
    (hj : j < s.cols.length) (ht : 1 ≤ t) (htl : t < (s.cols.getD j []).length) :
    q.dates = p.dates ∧
    RPanel.cell q 0 j = Val.na ∧
    (PricePanel.cell s (t - 1) j = none ∨ PricePanel.cell s t j = none →
      RPanel.cell q t j = Val.na) ∧
    (∀ a b : ℚ, PricePanel.cell s (t - 1) j = some a → PricePanel.cell s t j = some b →
      a ≠ 0 → RPanel.cell q t j = Val.fin ((b - a) / a)) ∧
    (∀ b : ℚ, PricePanel.cell s (t - 1) j = some 0 → PricePanel.cell s t j = some b →
      RPanel.cell q t j = (if b = 0 then Val.na else if 0 < b then Val.pinf else Val.ninf)) := by
  obtain ⟨hdates, hcol⟩ := calcAux_col id p sel names s q hn hs hq j hj
  have hsd : s.dates = p.dates := by
    unfold selectIndicators at hs
    split at hs
    · rw [Option.some.injEq] at hs
      rw [← hs]
    · exact absurd hs (by simp)
  have hcell : ∀ r, RPanel.cell q r j = (retCol (s.cols.getD j [])).getD r Val.na := by
    intro r
    unfold RPanel.cell
    rw [hcol]
  refine ⟨hdates.trans hsd, ?_, ?_, ?_, ?_⟩
  · rw [hcell 0, retCol_getD_zero]
    intro hnil
    rw [hnil] at htl
    simp at htl
  · intro hor
    rw [hcell t, retCol_getD _ t ht htl]
    rcases hor with h1 | h1
    · unfold PricePanel.cell at h1
      rw [h1]
      rfl
    · unfold PricePanel.cell at h1
      rw [h1]
      cases (s.cols.getD j []).getD (t - 1) none <;> rfl
  · intro a b ha hb hane
    rw [hcell t, retCol_getD _ t ht htl]
    unfold PricePanel.cell at ha hb
    rw [ha, hb]
    simp [retCell, hane]
  · intro b ha hb
    rw [hcell t, retCol_getD _ t ht htl]
    unfold PricePanel.cell at ha hb
    rw [ha, hb]
    simp [retCell]

unseal Rat.add Rat.sub Rat.mul Rat.inv in
/-- Witness for C1 (amended): on `exPrice` (prices 2 then 3, indicator A)
the return panel has a missing first cell and `(3-2)/2` at date 1. -/
theorem C1_witness :
    RPanel.cell exRetW 0 0 = Val.na ∧ RPanel.cell exRetW 1 0 = Val.fin ((3 - 2) / 2) := by
  have h := C1_returns_formula_amended exPrice ["A"] ["Adj Close"] exPrice exRetW 0 1
    (by decide) (by decide) (by decide) (by decide) (by decide) (by decide)
  exact ⟨h.2.1, h.2.2.2.1 2 3 (by decide) (by decide) (by decide)⟩

unseal Rat.add Rat.sub Rat.mul Rat.inv in
/-- C9: the locnguyen variant's `calc_normalized_returns` names the output
columns with the indicator name UNsuffixed (contradicting its own
docstring, which promises access via 'Adj Close Returns'), while the
`src/download_data.py` variant appends " Returns"; the date index is
preserved by both. -/
theorem C9_naming_divergence :
    calc_normalized_returns exPrice9 ["A"] =
      some ⟨[0, 1], [(("Adj Close", "AAPL"), [Val.na, Val.fin 1])]⟩ ∧
    calc_normalized_returns_dd exPrice9 ["A"] =
      some ⟨[0, 1], [(("Adj Close Returns", "AAPL"), [Val.na, Val.fin 1])]⟩ := by decide

/-- C7: saving a panel with `store_pickle` (projection onto the selected
indicator columns written to the file system) and loading that file back
with `read_pickle` restores exactly the projected panel: the indicator
columns are the translated selection in request order, the cell values
are identical, and the date index is the original one in the original
order. -/
theorem C7_round_trip (s : StockUniverse) (fs : String → Option PricePanel)
    (fn : String) (sel names : List String) (dfsave : PricePanel)
    (s2 : StockUniverse) (fs2 : String → Option PricePanel) (b : Bool) (r : StockUniverse)
    (hn : sel.mapM indicator_translation = some names)
    (hsel : selectIndicators s.prices_df names = some dfsave)
    (hstore : store_pickle s fs fn sel = some (s2, fs2))
    (hread : read_pickle s2 fs2 fn b = some r) :
    r.prices_df = dfsave ∧ dfsave.indicators = names ∧ dfsave.dates = s.prices_df.dates := by
  have hproj : dfsave.indicators = names ∧ dfsave.dates = s.prices_df.dates := by
    unfold selectIndicators at hsel
    split at hsel
    · rw [Option.some.injEq] at hsel
      rw [← hsel]
      exact ⟨rfl, rfl⟩
    · exact absurd hsel (by simp)
  refine ⟨?_, hproj.1, hproj.2⟩
  unfold store_pickle at hstore
  rw [hn, Option.some_bind, hsel, Option.some_bind, Option.some.injEq, Prod.mk.injEq] at hstore
  obtain ⟨hs2, hfs2⟩ := hstore
  subst hs2
  subst hfs2
  unfold read_pickle at hread
  rw [show (fun f => if f = fn then some dfsave else fs f) fn = some dfsave from by simp] at hread
  rw [Option.some_bind] at hread
  cases b with
  | false =>
    simp only [Bool.false_eq_true, if_false, Option.some.injEq] at hread
    rw [← hread]
  | true =>
    simp only [if_true] at hread
    split at hread
    · rw [Option.some.injEq] at hread
      rw [← hread]
    · exact absurd hread (by simp)

/-- Witness for C7: storing `exPrice` from `exStore` at "f.pkl" with
indicator code A and reading it back restores exactly the 'Adj Close'
panel with the original dates. -/
theorem C7_witness :
    exRead.prices_df = exPrice ∧ exPrice.indicators = ["Adj Close"] ∧
    exPrice.dates = exStore.prices_df.dates :=
  C7_round_trip exStore (fun _ => none) "f.pkl" ["A"] ["Adj Close"] exPrice exStore2 exFS2
    true exRead rfl rfl rfl rfl

/-- C8 counterexample: with startDate 5 after endDate 3, `download_data`
does not fail: it records the tickers, the reversed bounds and the
downloaded panel, while the spec's `setPanel` requires an
InvalidRangeError (`none`) for this input. -/
theorem C8_counterexample :
    3 < 5 ∧
    download_data exStore yfConst ["AAPL"] 5 3 =
      { exStore with tickers := ["AAPL"], startDate := 5, endDate := 3,
                     prices_df := exPrice9 } ∧
    setPanel exStore ["AAPL"] 5 3 exPrice9 = none :=
  ⟨by omega, rfl, by decide⟩

/-- C8 (amended): `download_data` records the tickers, both bounds and the
downloaded panel for EVERY pair of dates and never fails; it refines the
spec's `setPanel` only on valid ranges: for `startDate ≤ endDate` the two
agree, and for `startDate > endDate` `setPanel` fails with
InvalidRangeError while `download_data` still records the reversed
bounds. -/
theorem C8_records_amended (s : StockUniverse) (yfd : List String → ℕ → ℕ → PricePanel)
    (tickers : List String) (a b : ℕ) :
    download_data s yfd tickers a b =
      { s with tickers := tickers, startDate := a, endDate := b,
               prices_df := yfd tickers a b } ∧
    (a ≤ b → setPanel s tickers a b (yfd tickers a b) = some (download_data s yfd tickers a b)) ∧
    (b < a → setPanel s tickers a b (yfd tickers a b) = none) := by
  refine ⟨rfl, ?_, ?_⟩
  · intro hab
    unfold setPanel download_data
    rw [if_pos hab]
  · intro hba
    unfold setPanel
    rw [if_neg (by omega)]

/-- Witness for C8 (amended): with the valid range 2 ≤ 3 the spec's
`setPanel` returns exactly the state `download_data` records. -/
theorem C8_witness :
    setPanel exStore ["AAPL"] 2 3 (yfConst ["AAPL"] 2 3) =
      some (download_data exStore yfConst ["AAPL"] 2 3) :=
  (C8_records_amended exStore yfConst ["AAPL"] 2 3).2.1 (by omega)

/-- C10: `read_pickle` with `update_characteristics = False` updates only
the loaded panel and the recorded filename; the previously recorded
tickers, start date, end date (and the derived return/clean panels) are
unchanged. -/
theorem C10_frame (s : StockUniverse) (fs : String → Option PricePanel)
    (fn : String) (df : PricePanel) (r : StockUniverse)
    (hfile : fs fn = some df)
    (h : read_pickle s fs fn false = some r) :
    r.tickers = s.tickers ∧ r.startDate = s.startDate ∧ r.endDate = s.endDate ∧
    r.returns_df = s.returns_df ∧ r.clean_df = s.clean_df ∧
    r.prices_df = df ∧ r.filename = fn := by
  unfold read_pickle at h
  rw [hfile, Option.some_bind] at h
  simp only [Bool.false_eq_true, if_false, Option.some.injEq] at h
  rw [← h]
  exact ⟨rfl, rfl, rfl, rfl, rfl, rfl, rfl⟩

/-- Witness for C10: reading "g.pkl" into `exStore` without updating
characteristics changes only the panel and the filename. -/
theorem C10_witness :
    exRead10.tickers = exStore.tickers ∧ exRead10.startDate = exStore.startDate ∧
    exRead10.endDate = exStore.endDate ∧ exRead10.returns_df = exStore.returns_df ∧
    exRead10.clean_df = exStore.clean_df ∧ exRead10.prices_df = exPrice9 ∧
    exRead10.filename = "g.pkl" :=
  C10_frame exStore exFS10 "g.pkl" exPrice9 exRead10 rfl rfl
